import Mathlib

/-!
Verification of the `table` repository: a shallow embedding of the cell type
(`src/src/entry.rs`), the rectangular table container (described in the spec;
its `lib.rs` is not in the source tree) and the DSV parser
(`src/src/parsing.rs`), together with theorems settling the frozen claims.

Strings are modelled as `List Char`; the Rust code scans the UTF-8 bytes of a
`&str`, but every byte it compares against (the ASCII delimiter, `"`and the
newline bytes) is ASCII, so the byte-level scan and the character-level scan
make identical decisions and split at identical (character-aligned) positions.
The external `kserd::Number` value type is modelled as `Rat`.
-/

namespace TableVerif

/-- The cell type, mirroring `Entry<T>` in `src/src/entry.rs`.
`Number` is modelled as `Rat` (the spec asks only for a numeric value type
with total equality and ordering across integer and float representations). -/
inductive Entry (T : Type) where
  | Nil : Entry T
  | Num : Rat → Entry T
  | Obj : T → Entry T
deriving DecidableEq

/-- Total comparison on the numeric model, mirroring the total `Ord` of the
`Number` type that `Entry::partial_cmp` delegates to for the `Num` variant. -/
def numCompare (a b : Rat) : Ordering :=
  if a < b then .lt else if a = b then .eq else .gt

/-- Mirrors `impl PartialOrd for Entry` in `src/src/entry.rs`, lines 128-137.
The partial order on `T` is passed as an explicit comparison function
returning `none` where `T`'s `partial_cmp` returns `None`. -/
def entryCmp {T : Type} (cmpT : T → T → Option Ordering) :
    Entry T → Entry T → Option Ordering
  | .Nil, .Nil => some .eq
  | .Num a, .Num b => some (numCompare a b)
  | .Obj a, .Obj b => cmpT a b
  | _, _ => none

/-- Discriminant of an `Entry` variant (0 = Nil, 1 = Num, 2 = Obj). -/
def variantTag {T : Type} : Entry T → Nat
  | .Nil => 0
  | .Num _ => 1
  | .Obj _ => 2

/-- The table container, mirroring `Table<T>` as described by the spec:
row-major `data`, a cached column count `cols`, and the advisory `header`
flag. -/
structure Table (T : Type) where
  data : List (List (Entry T))
  cols : Nat
  header : Bool
deriving DecidableEq

/-- Modelled from the spec: `Table::new` / `Default` creates the empty table
with `header = true` (spec 4.2; `lib.rs` is not in the source tree). -/
def Table.new (T : Type) : Table T := ⟨[], 0, true⟩

/-- Modelled from the spec: `rows_len()` is the stored row count. -/
def Table.rowsLen {T : Type} (t : Table T) : Nat := t.data.length

/-- Modelled from the spec: `cols_len()` is the cached column count. -/
def Table.colsLen {T : Type} (t : Table T) : Nat := t.cols

/-- Right-pad a row (or column) with `Nil` up to width `w`. -/
def padRow {T : Type} (w : Nat) (r : List (Entry T)) : List (Entry T) :=
  r ++ List.replicate (w - r.length) Entry.Nil

/-- Maximum length over a list of rows (0 when empty). -/
def maxWidth {T : Type} (rs : List (List (Entry T))) : Nat :=
  rs.foldr (fun r m => max r.length m) 0

/-- Modelled from the spec: `add_row` appends one row; if its length exceeds
the current `cols` every existing row (and the new one) is right-padded to the
new width and `cols` updates, else the new row is right-padded to `cols`
(spec 4.2; behaviour cross-checked against `tests.rs::table_repr_add`). -/
def Table.addRow {T : Type} (t : Table T) (r : List (Entry T)) : Table T :=
  if t.cols < r.length then
    ⟨t.data.map (padRow r.length) ++ [padRow r.length r], r.length, t.header⟩
  else
    ⟨t.data ++ [padRow t.cols r], t.cols, t.header⟩

/-- Modelled from the spec: `add_rows` computes the maximum incoming width
once and pads every old and new row to it (spec 4.2; cross-checked against
`tests.rs::table_add_rows`). -/
def Table.addRows {T : Type} (t : Table T) (rs : List (List (Entry T))) : Table T :=
  let w := max t.cols (maxWidth rs)
  ⟨t.data.map (padRow w) ++ rs.map (padRow w), w, t.header⟩

/-- Append one entry to the right end of each row, pairing rows with column
entries positionally. -/
def appendColEntries {T : Type} (rows : List (List (Entry T)))
    (c : List (Entry T)) : List (List (Entry T)) :=
  List.zipWith (fun row e => row ++ [e]) rows c

/-- Modelled from the spec: `add_col` appends one column at the right, first
growing the row count to the column's length with all-`Nil` rows and
bottom-padding the column with `Nil` (spec 4.2; cross-checked against
`tests.rs::table_add_col`). -/
def Table.addCol {T : Type} (t : Table T) (c : List (Entry T)) : Table T :=
  let n := max t.rowsLen c.length
  let rows := t.data ++ List.replicate (n - t.data.length) (List.replicate t.cols Entry.Nil)
  ⟨appendColEntries rows (padRow n c), t.cols + 1, t.header⟩

/-- Modelled from the spec: `add_cols` computes the maximum incoming column
height once, grows the row count to it, then appends each column in turn
(spec 4.2; cross-checked against `tests.rs::table_add_cols`). -/
def Table.addCols {T : Type} (t : Table T) (cs : List (List (Entry T))) : Table T :=
  let n := max t.rowsLen (maxWidth cs)
  let rows := t.data ++ List.replicate (n - t.data.length) (List.replicate t.cols Entry.Nil)
  ⟨cs.foldl (fun acc c => appendColEntries acc (padRow n c)) rows, t.cols + cs.length, t.header⟩

/-- Insert an element at position `i` of a list (used for row/column insertion;
callers check `i` is at most the length first). -/
def insertAt {α : Type} : Nat → α → List α → List α
  | 0, a, l => a :: l
  | _ + 1, a, [] => [a]
  | n + 1, a, x :: xs => x :: insertAt n a xs

/-- Remove the element at position `i` of a list (callers check the bound). -/
def removeAt {α : Type} : Nat → List α → List α
  | _, [] => []
  | 0, _ :: xs => xs
  | n + 1, x :: xs => x :: removeAt n xs

/-- Modelled from the spec: `insert_row` requires `index` at most `rows_len()`
(else the call fails before mutating) and reconciles widths exactly like
`add_row` (spec 4.2; cross-checked against `tests.rs::inserting_rows_columns`). -/
def Table.insertRow {T : Type} (t : Table T) (i : Nat) (r : List (Entry T)) :
    Option (Table T) :=
  if i ≤ t.data.length then
    some (if t.cols < r.length then
      ⟨insertAt i (padRow r.length r) (t.data.map (padRow r.length)), r.length, t.header⟩
    else
      ⟨insertAt i (padRow t.cols r) t.data, t.cols, t.header⟩)
  else none

/-- Modelled from the spec: `insert_col` requires `index` at most `cols_len()`
and reconciles heights like `add_col` (spec 4.2; cross-checked against
`tests.rs::inserting_rows_columns`). -/
def Table.insertCol {T : Type} (t : Table T) (i : Nat) (c : List (Entry T)) :
    Option (Table T) :=
  if i ≤ t.cols then
    some (
      let n := max t.rowsLen c.length
      let rows := t.data ++ List.replicate (n - t.data.length) (List.replicate t.cols Entry.Nil)
      ⟨List.zipWith (fun row e => insertAt i e row) rows (padRow n c), t.cols + 1, t.header⟩)
  else none

/-- Modelled from the spec: `remove_row` requires `index` strictly below
`rows_len()`, deletes that row and leaves `cols` unchanged (spec 4.2). -/
def Table.removeRow {T : Type} (t : Table T) (i : Nat) : Option (Table T) :=
  if i < t.data.length then some ⟨removeAt i t.data, t.cols, t.header⟩ else none

/-- Modelled from the spec: `remove_col` requires `index` strictly below
`cols_len()`, deletes that column from every row and decrements `cols`
(spec 4.2; cross-checked against `tests.rs::remove_rows_columns`). -/
def Table.removeCol {T : Type} (t : Table T) (i : Nat) : Option (Table T) :=
  if i < t.cols then some ⟨t.data.map (removeAt i), t.cols - 1, t.header⟩ else none

/-- Modelled from the spec: `map` applies a cell function independently to
every cell, keeping shape and `header` (spec 4.2). -/
def Table.mapCells {T U : Type} (t : Table T) (f : Entry T → Entry U) : Table U :=
  ⟨t.data.map (List.map f), t.cols, t.header⟩

/-- Cell-level transform of `map_obj`: only `Obj` payloads are transformed,
`Nil` and `Num` are carried over re-tagged (spec 4.2). -/
def entryMapObj {T U : Type} (f : T → Entry U) : Entry T → Entry U
  | .Nil => .Nil
  | .Num n => .Num n
  | .Obj x => f x

/-- Modelled from the spec: `map_obj` (spec 4.2). -/
def Table.mapObj {T U : Type} (t : Table T) (f : T → Entry U) : Table U :=
  t.mapCells (entryMapObj f)

/-- Modelled from the spec: `Table::from` a nested row list pads every row to
the maximum inner length, `header` defaulting to true (spec 4.2;
cross-checked against `tests.rs::table_from_vector_of_vectors`). This is the
`lines.into()` used by `parse_dsv`. -/
def tableFrom {T : Type} (vs : List (List (Entry T))) : Table T :=
  ⟨vs.map (padRow (maxWidth vs)), maxWidth vs, true⟩

/-- One table operation, for stating the invariant claim about arbitrary
operation sequences. -/
inductive Op (T : Type) where
  | addRow (r : List (Entry T))
  | addRows (rs : List (List (Entry T)))
  | addCol (c : List (Entry T))
  | addCols (cs : List (List (Entry T)))
  | insertRow (i : Nat) (r : List (Entry T))
  | insertCol (i : Nat) (c : List (Entry T))
  | removeRow (i : Nat)
  | removeCol (i : Nat)
  | mapCells (f : Entry T → Entry T)
  | mapObj (f : T → Entry T)

/-- Apply one operation; `none` models the index-precondition contract
violations of the insert/remove family (which abort before mutating). -/
def applyOp {T : Type} (t : Table T) : Op T → Option (Table T)
  | .addRow r => some (t.addRow r)
  | .addRows rs => some (t.addRows rs)
  | .addCol c => some (t.addCol c)
  | .addCols cs => some (t.addCols cs)
  | .insertRow i r => t.insertRow i r
  | .insertCol i c => t.insertCol i c
  | .removeRow i => t.removeRow i
  | .removeCol i => t.removeCol i
  | .mapCells f => some (t.mapCells f)
  | .mapObj f => some (t.mapObj f)

/-- Apply a sequence of operations left to right. -/
def applyOps {T : Type} (t : Table T) : List (Op T) → Option (Table T)
  | [] => some t
  | op :: ops => match applyOp t op with
    | some t' => applyOps t' ops
    | none => none

/-- The rectangularity invariant: every stored row has exactly `cols` cells. -/
def rect {T : Type} (t : Table T) : Prop := ∀ r ∈ t.data, r.length = t.cols

/-- Mirrors `u8::is_ascii_whitespace` (space, tab, newline, form feed,
carriage return) at the character level. -/
def isAsciiWs (c : Char) : Bool :=
  c == ' ' || c == '\t' || c == '\n' || c == '\x0c' || c == '\r'

/-- The leading-whitespace skip predicate of `quoted_str` (`parsing.rs`,
lines 114-120): ASCII whitespace except the newline bytes. -/
def wsSkip (c : Char) : Bool :=
  isAsciiWs c && !(c == '\n') && !(c == '\r')

/-- Mirrors `char::is_whitespace` (Unicode `White_Space`), used by
`str::trim_end`. -/
def isUnicodeWs (c : Char) : Bool :=
  [9, 10, 11, 12, 13, 32, 133, 160, 5760, 8192, 8193, 8194, 8195, 8196, 8197,
    8198, 8199, 8200, 8201, 8202, 8232, 8233, 8239, 8287, 12288].contains c.toNat

/-- Mirrors `str::trim_end`: remove all trailing Unicode whitespace. -/
def trimEnd (s : List Char) : List Char :=
  (s.reverse.dropWhile isUnicodeWs).reverse

/-- Mirrors `str::trim_matches` with a single-character pattern: repeatedly
remove every matching character from both ends. -/
def trimMatches (c : Char) (s : List Char) : List Char :=
  ((s.dropWhile (fun x => x == c)).reverse.dropWhile (fun x => x == c)).reverse

/-- The cell-text pipeline of `parse_line2` (`parsing.rs`, line 100):
`trim_end()` then `trim_matches('"')` applied to the raw scanned slice. -/
def cellText (s : List Char) : List Char :=
  trimMatches '"' (trimEnd s)

/-- Numeric value of a digit string, most significant first. -/
def digitsVal (ds : List Char) : Nat :=
  ds.foldl (fun a c => a * 10 + (c.toNat - 48)) 0

/-- The rational `m * 10 ^ shift` for a natural mantissa and an integer
decimal shift, built with a single normalizing constructor. -/
def decimalValue (m : Nat) (shift : Int) : Rat :=
  match shift with
  | .ofNat k => mkRat ((m : Int) * (10 : Int) ^ k) 1
  | .negSucc k => mkRat (m : Int) ((10 : Nat) ^ (k + 1))

/-- Digits (with optional sign) of an exponent, consuming everything. -/
def parseExpDigits (r : List Char) : Option Int :=
  let (neg, r1) : Bool × List Char := match r with
    | '-' :: t => (true, t)
    | '+' :: t => (false, t)
    | t => (false, t)
  let ds := r1.takeWhile Char.isDigit
  if ds = [] then none
  else if r1.dropWhile Char.isDigit ≠ [] then none
  else some (if neg then -(digitsVal ds : Int) else (digitsVal ds : Int))

/-- Parse the exponent suffix of a numeric literal: empty, or `e`/`E`
followed by an optional sign and at least one digit, consuming everything. -/
def parseExpPart : List Char → Option Int
  | [] => some 0
  | 'e' :: r => parseExpDigits r
  | 'E' :: r => parseExpDigits r
  | _ => none

/-- Modelled from the spec: the string grammar of the external `kserd::Number`
parser (`s.parse::<Number>()` in `map_entry`), which the spec describes as "a
standard integer/floating-point numeric grammar": an optional sign, a decimal
significand (digits, optionally with a fractional part), and an optional
decimal exponent; the whole slice must match. -/
def parseNumber (s : List Char) : Option Rat :=
  let (neg, s1) : Bool × List Char := match s with
    | '-' :: t => (true, t)
    | '+' :: t => (false, t)
    | t => (false, t)
  let ip := s1.takeWhile Char.isDigit
  let s2 := s1.dropWhile Char.isDigit
  let (fp, s3) : List Char × List Char := match s2 with
    | '.' :: r => (r.takeWhile Char.isDigit, r.dropWhile Char.isDigit)
    | r => ([], r)
  if ip = [] ∧ fp = [] then none
  else match parseExpPart s3 with
    | none => none
    | some e =>
      let v := decimalValue (digitsVal (ip ++ fp)) (e - (fp.length : Int))
      some (if neg then -v else v)

/-- Mirrors `map_entry` (`parsing.rs`, lines 138-146): empty slice to `Nil`,
numeric slice to `Num`, anything else to `Obj` of the same slice. -/
def mapEntry (s : List Char) : Entry (List Char) :=
  if s = [] then .Nil
  else match parseNumber s with
    | some x => .Num x
    | none => .Obj s

/-- The scanning loop of `quoted_str` (`parsing.rs`, lines 127-135): walk the
slice with the `escaped` flag, stopping at the first delimiter or newline
seen while not escaped; any double quote clears `escaped`. Returns the
consumed part and the rest. -/
def qsScan (delim : Char) : Bool → List Char → List Char × List Char
  | _, [] => ([], [])
  | escaped, c :: cs =>
    if !escaped && (c == delim || c == '\n' || c == '\r') then ([], c :: cs)
    else
      let p := qsScan delim (if c == '"' then false else escaped) cs
      (c :: p.1, p.2)

/-- Mirrors `quoted_str` (`parsing.rs`, lines 113-136): skip leading
non-newline ASCII whitespace, consume one opening double quote if present
(setting `escaped`), then scan. -/
def quotedStr (delim : Char) (line : List Char) : List Char × List Char :=
  match line.dropWhile wsSkip with
  | '"' :: rest => qsScan delim true rest
  | i => qsScan delim false i

/-- Mirrors `strip_nl` (`parsing.rs`, lines 105-109): strip one leading
`\n` or `\r\n`. -/
def stripNl : List Char → Option (List Char)
  | '\n' :: rest => some rest
  | '\r' :: '\n' :: rest => some rest
  | _ => none

/-- The input remaining after one cell scan of `parse_line2`: the remainder
of `quoted_str`, minus one leading delimiter when present (`parsing.rs`,
lines 94-98). -/
def cellRem (delim : Char) (s : List Char) : List Char :=
  match (quotedStr delim s).2 with
  | c :: rest => if c == delim then rest else c :: rest
  | [] => []

/-- The entry produced by one cell scan of `parse_line2`: the scanned slice
trimmed, quote-stripped and classified (`parsing.rs`, lines 100-101). -/
def cellEntry (delim : Char) (s : List Char) : Entry (List Char) :=
  mapEntry (cellText (quotedStr delim s).1)

/-- Fuel-indexed embedding of the `loop` of `parse_line2` (`parsing.rs`,
lines 83-102), with the accumulated entries made explicit. `none` means the
fuel ran out; the Rust loop has no termination guarantee of its own (see the
`\r` claim), so the fuel is genuine. -/
def parseLine2F (delim : Char) :
    Nat → List Char → List (Entry (List Char)) →
    Option (List (Entry (List Char)) × List Char)
  | 0, _, _ => none
  | fuel + 1, s, entries =>
    if s = [] then some (entries, [])
    else
      match stripNl s with
      | some rem => some (entries, rem)
      | none => parseLine2F delim fuel (cellRem delim s) (entries ++ [cellEntry delim s])

/-- Fuel-indexed embedding of the line loop of `parse_dsv` (`parsing.rs`,
lines 26-32): repeatedly run `parse_line2` until the input is exhausted. -/
def parseLinesF (delim : Char) : Nat → List Char → Option (List (List (Entry (List Char))))
  | 0, _ => none
  | fuel + 1, s =>
    if s = [] then some []
    else
      match parseLine2F delim (fuel + 1) s [] with
      | none => none
      | some (line, rem) => (parseLinesF delim fuel rem).map (fun ls => line :: ls)

/-- Mirrors `char::is_ascii`: the code point fits in one ASCII byte. -/
def charIsAscii (c : Char) : Bool := c.toNat ≤ 127

/-- Outcome of a `parse_dsv` call: the explicit contract-violation panic, a
run that exceeds the fuel (the embedding of non-termination), or a table. -/
inductive PResult (T : Type) where
  | panic : PResult T
  | diverge : PResult T
  | ok : Table T → PResult T
deriving DecidableEq

/-- Mirrors `parse_dsv` (`parsing.rs`, lines 16-40): panic when the delimiter
is not ASCII, otherwise run the line loop and convert the accumulated rows
with `Table::from`. -/
def parseDsvF (fuel : Nat) (delim : Char) (s : List Char) : PResult (List Char) :=
  if !charIsAscii delim then .panic
  else
    match parseLinesF delim fuel s with
    | none => .diverge
    | some lines => .ok (tableFrom lines)

/-- The transformation the claim about quote stripping describes: at most one
leading and at most one trailing double quote removed, written from the
claim's words for comparison with the code's `trim_matches`. -/
def specStripOne (s : List Char) : List Char :=
  let a := match s with
    | '"' :: r => r
    | r => r
  match a.getLast? with
  | some '"' => a.dropLast
  | _ => a

/-- C5: `parse_dsv` fails as a panic exactly when the delimiter is not a
single ASCII character; for an ASCII delimiter no input text (malformed
quoting included) produces a failure — the only other outcomes are a table
or the (separately claimed) non-termination. -/
theorem c5_panic_iff_nonascii :
    ∀ (fuel : Nat) (d : Char) (s : List Char),
      parseDsvF fuel d s = .panic ↔ charIsAscii d = false := by
  intro fuel d s
  unfold parseDsvF
  cases h : charIsAscii d with
  | false => simp
  | true =>
    simp only [h, Bool.not_true, Bool.false_eq_true, if_false]
    cases parseLinesF d fuel s <;> simp

/-- C9: `Entry::partial_cmp` yields a result only for identical variants:
`Nil`/`Nil` is `Equal`, `Num`/`Num` compares the numeric values, `Obj`/`Obj`
defers to `T`'s order, and every cross-variant comparison is `None`. -/
theorem c9_cmp_same_variant :
    (∀ (T : Type) (cmpT : T → T → Option Ordering) (a b : Entry T),
      entryCmp cmpT a b ≠ none → variantTag a = variantTag b) ∧
    (∀ (T : Type) (cmpT : T → T → Option Ordering),
      entryCmp (T := T) cmpT .Nil .Nil = some .eq) ∧
    (∀ (T : Type) (cmpT : T → T → Option Ordering) (x y : Rat),
      entryCmp (T := T) cmpT (.Num x) (.Num y) = some (numCompare x y)) ∧
    (∀ (T : Type) (cmpT : T → T → Option Ordering) (x y : T),
      entryCmp cmpT (.Obj x) (.Obj y) = cmpT x y) ∧
    (∀ (T : Type) (cmpT : T → T → Option Ordering) (a b : Entry T),
      variantTag a ≠ variantTag b → entryCmp cmpT a b = none) := by
  refine ⟨?_, fun _ _ => rfl, fun _ _ _ _ => rfl, fun _ _ _ _ => rfl, ?_⟩
  · intro T cmpT a b h
    cases a <;> cases b <;> simp_all [entryCmp, variantTag]
  · intro T cmpT a b h
    cases a <;> cases b <;> simp_all [entryCmp, variantTag]

/-- Witness for the cross-variant case of the partial comparison claim. -/
theorem c9_cmp_same_variant_witness :
    variantTag (Entry.Nil : Entry Unit) ≠ variantTag (Entry.Obj ()) ∧
    entryCmp (fun _ _ => some Ordering.eq) (Entry.Nil : Entry Unit) (Entry.Obj ()) = none :=
  ⟨by decide, c9_cmp_same_variant.2.2.2.2 Unit (fun _ _ => some Ordering.eq)
    Entry.Nil (Entry.Obj ()) (by decide)⟩

/-- C7: `add_row` appends exactly one row, widening and padding every row when
the incoming row is longer than `cols`, else right-padding the new row; and
the concrete scenario `add_row([Nil, Num(101), Obj(x)])` then
`add_row([Obj(y)])` from an empty table yields exactly
`[[Nil,Num(101),Obj(x)],[Obj(y),Nil,Nil]]`. -/
theorem c7_add_row :
    (∀ (T : Type) (t : Table T) (r : List (Entry T)),
      (t.addRow r).rowsLen = t.rowsLen + 1 ∧
      (t.cols < r.length →
        (t.addRow r).colsLen = r.length ∧
        (t.addRow r).data = t.data.map (padRow r.length) ++ [padRow r.length r]) ∧
      (r.length ≤ t.cols →
        (t.addRow r).colsLen = t.cols ∧
        (t.addRow r).data = t.data ++ [padRow t.cols r])) ∧
    (∀ (T : Type) (x y : T),
      ((Table.new T).addRow [.Nil, .Num 101, .Obj x]).addRow [.Obj y] =
        ⟨[[.Nil, .Num 101, .Obj x], [.Obj y, .Nil, .Nil]], 3, true⟩) := by
  constructor
  · intro T t r
    by_cases hc : t.cols < r.length <;>
      simp [Table.addRow, hc, Table.rowsLen, Table.colsLen]
  · intro T x y
    rfl

/-- Witness for the widening branch of the `add_row` claim. -/
theorem c7_add_row_witness :
    (Table.new Unit).cols < ([Entry.Obj ()] : List (Entry Unit)).length ∧
    ((Table.new Unit).addRow [Entry.Obj ()]).colsLen =
      ([Entry.Obj ()] : List (Entry Unit)).length :=
  ⟨by decide, ((c7_add_row.1 Unit (Table.new Unit) [Entry.Obj ()]).2.1 (by decide)).1⟩

/-- C6: `map_entry` classification — an empty trimmed slice becomes `Nil`, a
slice matching the numeric grammar becomes `Num` of the parsed value, and any
other slice becomes `Obj` carrying the very same slice (the zero-copy
borrow); with the spec's concrete examples. -/
theorem c6_classification :
    (∀ s : List Char, s = [] → mapEntry s = .Nil) ∧
    (∀ (s : List Char) (x : Rat), parseNumber s = some x → mapEntry s = .Num x) ∧
    (∀ s : List Char, s ≠ [] → parseNumber s = none → mapEntry s = .Obj s) ∧
    mapEntry (String.toList "3.14e7") = .Num 31400000 ∧
    mapEntry (String.toList "abc") = .Obj (String.toList "abc") ∧
    mapEntry [] = .Nil ∧
    mapEntry (String.toList "-2") = .Num (-2) := by
  refine ⟨?_, ?_, ?_, by decide, by decide, by decide, by decide⟩
  · intro s h
    simp [mapEntry, h]
  · intro s x h
    have hs : s ≠ [] := by
      rintro rfl
      have hnone : parseNumber ([] : List Char) = none := by decide
      rw [hnone] at h
      cases h
    simp [mapEntry, hs, h]
  · intro s h hn
    simp [mapEntry, h, hn]

/-- Witness for the numeric branch of the classification claim. -/
theorem c6_classification_witness :
    parseNumber (String.toList "3.14e7") = some 31400000 ∧
    mapEntry (String.toList "3.14e7") = .Num 31400000 :=
  ⟨by decide, c6_classification.2.1 _ 31400000 (by decide)⟩

/-- One step of the `parse_line2` loop on a lone carriage return: nothing is
consumed and a `Nil` entry is pushed, so the loop never terminates. -/
theorem parseLine2F_cr :
    ∀ (f : Nat) (acc : List (Entry (List Char))),
      parseLine2F ',' f ['\r'] acc = none := by
  intro f
  induction f with
  | zero => intro acc; rfl
  | succ n ih =>
    intro acc
    have hstep : parseLine2F ',' (n + 1) ['\r'] acc =
        parseLine2F ',' n ['\r'] (acc ++ [mapEntry (cellText [])]) := rfl
    rw [hstep]
    exact ih _

/-- The line loop therefore returns no result on a lone carriage return for
any fuel. -/
theorem parseLinesF_cr : ∀ f : Nat, parseLinesF ',' f ['\r'] = none := by
  intro f
  cases f with
  | zero => rfl
  | succ n =>
    simp [parseLinesF, parseLine2F_cr (n + 1) []]

/-- C3: evaluation of the code at the failing input — `parse_dsv(',', "\r")`
fails to complete for every fuel bound, i.e. the loop in `parse_line2`
diverges on a carriage return that is not followed by a newline, contradicting
the claimed termination. -/
theorem c3_cr_divergence :
    ∀ fuel : Nat, parseDsvF fuel ',' (String.toList "\r") = .diverge := by
  intro fuel
  have h : String.toList "\r" = ['\r'] := rfl
  rw [h]
  simp [parseDsvF, parseLinesF_cr fuel, charIsAscii]

/-- C1 counterexample: with an open quote, the literal newline in
`"Hello\nworld",Yo` does not end the row — the parse yields a single row
whose first cell contains the newline (this is the behaviour pinned by
`tests.rs::quoted_new_lines`). -/
theorem c1_counterexample :
    parseDsvF 8 ',' (String.toList "\"Hello\nworld\",Yo") =
      .ok ⟨[[.Obj (String.toList "Hello\nworld"), .Obj (String.toList "Yo")]], 2, true⟩ ∧
    '\n' ∈ String.toList "Hello\nworld" := by decide

/-- C4 counterexample: the raw scanned slice of input `x""` is `x""` itself,
and the code's `trim_end` + `trim_matches` pipeline strips BOTH trailing
quotes, while the claimed at-most-one stripping would keep one. -/
theorem c4_counterexample :
    (quotedStr ',' (String.toList "x\"\"")).1 = String.toList "x\"\"" ∧
    cellText (String.toList "x\"\"") = ['x'] ∧
    specStripOne (trimEnd (String.toList "x\"\"")) = ['x', '"'] ∧
    cellText (String.toList "x\"\"") ≠ specStripOne (trimEnd (String.toList "x\"\"")) := by
  decide

/-- Padding to a width at least the row's length yields exactly that width. -/
theorem length_padRow {T : Type} (w : Nat) (r : List (Entry T)) (h : r.length ≤ w) :
    (padRow w r).length = w := by
  simp [padRow]
  omega

/-- Every member of a row list is bounded by its maximum width. -/
theorem le_maxWidth {T : Type} :
    ∀ {rs : List (List (Entry T))} {r : List (Entry T)}, r ∈ rs → r.length ≤ maxWidth rs := by
  intro rs
  induction rs with
  | nil => intro r h; cases h
  | cons a as ih =>
    intro r h
    rcases List.mem_cons.mp h with h | h
    · subst h; exact le_max_left _ _
    · exact le_trans (ih h) (le_max_right _ _)

/-- Insertion always grows a list by one element. -/
theorem length_insertAt {α : Type} :
    ∀ (i : Nat) (a : α) (l : List α), (insertAt i a l).length = l.length + 1 := by
  intro i
  induction i with
  | zero => intro a l; cases l <;> rfl
  | succ n ih =>
    intro a l
    cases l with
    | nil => rfl
    | cons x xs => simp [insertAt, ih]

/-- Members of an insertion are the inserted element or old members. -/
theorem mem_insertAt {α : Type} :
    ∀ (i : Nat) (a : α) (l : List α) (x : α), x ∈ insertAt i a l → x = a ∨ x ∈ l := by
  intro i
  induction i with
  | zero =>
    intro a l x h
    cases l <;> simpa [insertAt] using h
  | succ n ih =>
    intro a l x h
    cases l with
    | nil => simpa [insertAt] using h
    | cons y ys =>
      rcases List.mem_cons.mp h with h | h
      · exact Or.inr (by simp [h])
      · rcases ih a ys x h with h | h
        · exact Or.inl h
        · exact Or.inr (List.mem_cons_of_mem _ h)

/-- Removing an in-range element shrinks a list by one. -/
theorem length_removeAt {α : Type} :
    ∀ (i : Nat) (l : List α), i < l.length → (removeAt i l).length = l.length - 1 := by
  intro i
  induction i with
  | zero => intro l h; cases l <;> simp [removeAt]
  | succ n ih =>
    intro l h
    cases l with
    | nil => simp at h
    | cons x xs =>
      have hx : n < xs.length := by simpa using h
      have := ih xs hx
      simp [removeAt, this]
      omega

/-- Members of a removal were members before. -/
theorem mem_removeAt {α : Type} :
    ∀ (i : Nat) (l : List α) (x : α), x ∈ removeAt i l → x ∈ l := by
  intro i
  induction i with
  | zero =>
    intro l x h
    cases l with
    | nil => simp [removeAt] at h
    | cons y ys => exact List.mem_cons_of_mem _ (by simpa [removeAt] using h)
  | succ n ih =>
    intro l x h
    cases l with
    | nil => simp [removeAt] at h
    | cons y ys =>
      rcases List.mem_cons.mp h with h | h
      · simp [h]
      · exact List.mem_cons_of_mem _ (ih ys x h)

/-- Appending one column entry to rows of uniform width gives uniform
width plus one. -/
theorem length_mem_appendColEntries {T : Type} :
    ∀ (rows : List (List (Entry T))) (c : List (Entry T)) (w : Nat),
      (∀ r ∈ rows, r.length = w) →
      ∀ x ∈ appendColEntries rows c, x.length = w + 1 := by
  intro rows
  induction rows with
  | nil => intro c w _ x hx; simp [appendColEntries] at hx
  | cons a as ih =>
    intro c w hw x hx
    cases c with
    | nil => simp [appendColEntries] at hx
    | cons e es =>
      rcases List.mem_cons.mp hx with h | h
      · subst h
        simp [hw a (by simp)]
      · exact ih es w (fun r hr => hw r (List.mem_cons_of_mem _ hr)) x h

/-- Inserting one entry into rows of uniform width gives uniform width plus
one. -/
theorem length_mem_insertColEntries {T : Type} :
    ∀ (rows : List (List (Entry T))) (c : List (Entry T)) (i w : Nat),
      (∀ r ∈ rows, r.length = w) →
      ∀ x ∈ List.zipWith (fun row e => insertAt i e row) rows c, x.length = w + 1 := by
  intro rows
  induction rows with
  | nil => intro c i w _ x hx; simp at hx
  | cons a as ih =>
    intro c i w hw x hx
    cases c with
    | nil => simp at hx
    | cons e es =>
      rcases List.mem_cons.mp hx with h | h
      · subst h
        rw [length_insertAt, hw a (by simp)]
      · exact ih es i w (fun r hr => hw r (List.mem_cons_of_mem _ hr)) x h

/-- The uniform-width rows fed to the column operations: stored data plus
all-`Nil` filler rows. -/
theorem length_mem_growRows {T : Type} {t : Table T} (h : rect t) (k : Nat) :
    ∀ r ∈ t.data ++ List.replicate k (List.replicate t.cols Entry.Nil), r.length = t.cols := by
  intro r hr
  rcases List.mem_append.mp hr with hr | hr
  · exact h r hr
  · rw [List.eq_of_mem_replicate hr]
    simp

/-- Folding column appends over rows of uniform width `w` yields uniform
width `w` plus the number of columns. -/
theorem length_mem_foldAppendCols {T : Type} :
    ∀ (cs : List (List (Entry T))) (rows : List (List (Entry T))) (n w : Nat),
      (∀ r ∈ rows, r.length = w) →
      ∀ x ∈ cs.foldl (fun acc c => appendColEntries acc (padRow n c)) rows,
        x.length = w + cs.length := by
  intro cs
  induction cs with
  | nil => intro rows n w hw x hx; simpa using hw x hx
  | cons c cs' ih =>
    intro rows n w hw x hx
    have step : ∀ r ∈ appendColEntries rows (padRow n c), r.length = w + 1 :=
      length_mem_appendColEntries rows (padRow n c) w hw
    have := ih (appendColEntries rows (padRow n c)) n (w + 1) step x hx
    rw [this]
    simp
    omega

/-- `add_row` preserves rectangularity. -/
theorem rect_addRow {T : Type} {t : Table T} (h : rect t) (r : List (Entry T)) :
    rect (t.addRow r) := by
  unfold rect Table.addRow at *
  by_cases hc : t.cols < r.length <;> simp [hc]
  · intro x hx
    rcases hx with ⟨row, hrow, rfl⟩ | rfl
    · exact length_padRow _ _ (by rw [h row hrow]; omega)
    · exact length_padRow _ _ le_rfl
  · intro x hx
    rcases hx with hx | rfl
    · exact h x hx
    · exact length_padRow _ _ (by omega)

/-- `add_rows` preserves rectangularity. -/
theorem rect_addRows {T : Type} {t : Table T} (h : rect t) (rs : List (List (Entry T))) :
    rect (t.addRows rs) := by
  unfold rect Table.addRows at *
  intro x hx
  simp at hx
  rcases hx with ⟨row, hrow, rfl⟩ | ⟨row, hrow, rfl⟩
  · exact length_padRow _ _ (le_trans (le_of_eq (h row hrow)) (le_max_left _ _))
  · exact length_padRow _ _ (le_trans (le_maxWidth hrow) (le_max_right _ _))

/-- `add_col` preserves rectangularity. -/
theorem rect_addCol {T : Type} {t : Table T} (h : rect t) (c : List (Entry T)) :
    rect (t.addCol c) := by
  unfold rect Table.addCol
  intro x hx
  exact length_mem_appendColEntries _ _ _ (length_mem_growRows h _) x hx

/-- `add_cols` preserves rectangularity. -/
theorem rect_addCols {T : Type} {t : Table T} (h : rect t) (cs : List (List (Entry T))) :
    rect (t.addCols cs) := by
  unfold rect Table.addCols
  intro x hx
  exact length_mem_foldAppendCols cs _ _ _ (length_mem_growRows h _) x hx

/-- `insert_row` preserves rectangularity when it succeeds. -/
theorem rect_insertRow {T : Type} {t t' : Table T} (h : rect t) (i : Nat)
    (r : List (Entry T)) (hs : t.insertRow i r = some t') : rect t' := by
  unfold Table.insertRow at hs
  split at hs
  · cases hs
    unfold rect
    by_cases hc : t.cols < r.length <;> simp [hc]
    · intro x hx
      rcases mem_insertAt _ _ _ _ hx with rfl | hx
      · exact length_padRow _ _ le_rfl
      · rcases List.mem_map.mp hx with ⟨row, hrow, rfl⟩
        exact length_padRow _ _ (by rw [h row hrow]; omega)
    · intro x hx
      rcases mem_insertAt _ _ _ _ hx with rfl | hx
      · exact length_padRow _ _ (by omega)
      · exact h x hx
  · cases hs

/-- `insert_col` preserves rectangularity when it succeeds. -/
theorem rect_insertCol {T : Type} {t t' : Table T} (h : rect t) (i : Nat)
    (c : List (Entry T)) (hs : t.insertCol i c = some t') : rect t' := by
  unfold Table.insertCol at hs
  split at hs
  · cases hs
    unfold rect
    intro x hx
    exact length_mem_insertColEntries _ _ _ _ (length_mem_growRows h _) x hx
  · cases hs

/-- `remove_row` preserves rectangularity when it succeeds. -/
theorem rect_removeRow {T : Type} {t t' : Table T} (h : rect t) (i : Nat)
    (hs : t.removeRow i = some t') : rect t' := by
  unfold Table.removeRow at hs
  split at hs
  · cases hs
    intro x hx
    exact h x (mem_removeAt _ _ _ hx)
  · cases hs

/-- `remove_col` preserves rectangularity when it succeeds. -/
theorem rect_removeCol {T : Type} {t t' : Table T} (h : rect t) (i : Nat)
    (hs : t.removeCol i = some t') : rect t' := by
  unfold Table.removeCol at hs
  split at hs
  case isTrue hi =>
    cases hs
    intro x hx
    rcases List.mem_map.mp hx with ⟨row, hrow, rfl⟩
    rw [length_removeAt i row (by rw [h row hrow]; exact hi), h row hrow]
  · cases hs

/-- `map` preserves rectangularity. -/
theorem rect_mapCells {T U : Type} {t : Table T} (h : rect t) (f : Entry T → Entry U) :
    rect (t.mapCells f) := by
  unfold rect Table.mapCells at *
  intro x hx
  rcases List.mem_map.mp hx with ⟨row, hrow, rfl⟩
  simp [h row hrow]

/-- Every single operation preserves rectangularity. -/
theorem rect_applyOp {T : Type} {t t' : Table T} (h : rect t) (op : Op T)
    (hs : applyOp t op = some t') : rect t' := by
  cases op with
  | addRow r => cases hs; exact rect_addRow h r
  | addRows rs => cases hs; exact rect_addRows h rs
  | addCol c => cases hs; exact rect_addCol h c
  | addCols cs => cases hs; exact rect_addCols h cs
  | insertRow i r => exact rect_insertRow h i r hs
  | insertCol i c => exact rect_insertCol h i c hs
  | removeRow i => exact rect_removeRow h i hs
  | removeCol i => exact rect_removeCol h i hs
  | mapCells f => cases hs; exact rect_mapCells h f
  | mapObj f => cases hs; exact rect_mapCells h (entryMapObj f)

/-- Every successful operation sequence preserves rectangularity. -/
theorem rect_applyOps {T : Type} :
    ∀ (ops : List (Op T)) (t t' : Table T), rect t → applyOps t ops = some t' → rect t' := by
  intro ops
  induction ops with
  | nil => intro t t' h hs; cases hs; exact h
  | cons op ops' ih =>
    intro t t' h hs
    unfold applyOps at hs
    split at hs
    case h_1 t'' heq => exact ih t'' t' (rect_applyOp h op heq) hs
    case h_2 => cases hs

/-- C2: after any finite, successful sequence of the table operations applied
to the initially empty table, every stored row's length equals `cols_len()`
and `rows_len()` equals the stored row count; the empty table reports 0 rows
and 0 columns. -/
theorem c2_rectangular :
    (∀ (T : Type) (ops : List (Op T)) (t : Table T),
      applyOps (Table.new T) ops = some t →
      (∀ r ∈ t.data, r.length = t.colsLen) ∧ t.rowsLen = t.data.length) ∧
    (∀ T : Type, (Table.new T).rowsLen = 0 ∧ (Table.new T).colsLen = 0) := by
  constructor
  · intro T ops t h
    refine ⟨rect_applyOps ops _ t ?_ h, rfl⟩
    intro r hr
    cases hr
  · intro T
    exact ⟨rfl, rfl⟩

/-- Witness: a concrete operation sequence (add a row, add a column, remove a
column) keeps the table rectangular. -/
theorem c2_rectangular_witness :
    applyOps (Table.new Unit)
        [Op.addRow [Entry.Obj ()], Op.addCol [Entry.Nil, Entry.Nil], Op.removeCol 0] =
      some ⟨[[Entry.Nil], [Entry.Nil]], 1, true⟩ ∧
    ∀ r ∈ (⟨[[Entry.Nil], [Entry.Nil]], 1, true⟩ : Table Unit).data,
      r.length = (⟨[[Entry.Nil], [Entry.Nil]], 1, true⟩ : Table Unit).colsLen :=
  ⟨by decide,
    (c2_rectangular.1 Unit
      [Op.addRow [Entry.Obj ()], Op.addCol [Entry.Nil, Entry.Nil], Op.removeCol 0]
      ⟨[[Entry.Nil], [Entry.Nil]], 1, true⟩ (by decide)).1⟩

/-- One-step equation of the line loop on empty input. -/
theorem parseLine2F_succ_nil (d : Char) (n : Nat) (acc : List (Entry (List Char))) :
    parseLine2F d (n + 1) [] acc = some (acc, []) := rfl

/-- One-step equation of the line loop when a line boundary is next. -/
theorem parseLine2F_succ_strip {d : Char} {n : Nat} {s rem : List Char}
    (h1 : s ≠ []) (h2 : stripNl s = some rem) (acc : List (Entry (List Char))) :
    parseLine2F d (n + 1) s acc = some (acc, rem) := by
  simp [parseLine2F, h1, h2]

/-- One-step equation of the line loop when a cell is scanned. -/
theorem parseLine2F_succ_cell {d : Char} {n : Nat} {s : List Char}
    (h1 : s ≠ []) (h2 : stripNl s = none) (acc : List (Entry (List Char))) :
    parseLine2F d (n + 1) s acc =
      parseLine2F d n (cellRem d s) (acc ++ [cellEntry d s]) := by
  simp [parseLine2F, h1, h2]

/-- The cell scan splits its input into consumed part and remainder. -/
theorem qsScan_decomp (d : Char) :
    ∀ (u : List Char) (esc : Bool), (qsScan d esc u).1 ++ (qsScan d esc u).2 = u := by
  intro u
  induction u with
  | nil => intro esc; rfl
  | cons c cs ih =>
    intro esc
    by_cases hb : (!esc && (c == d || c == '\n' || c == '\r')) = true
    · simp [qsScan, hb]
    · simp [qsScan, hb, ih]

/-- While not escaped, the cell scan never consumes a newline byte: scanning
started outside a quote keeps every newline out of the consumed slice. -/
theorem qsScan_false_no_nl (d : Char) :
    ∀ u : List Char, '\n' ∉ (qsScan d false u).1 ∧ '\r' ∉ (qsScan d false u).1 := by
  intro u
  induction u with
  | nil => simp [qsScan]
  | cons c cs ih =>
    by_cases hb : (c == d || c == '\n' || c == '\r') = true
    · simp [qsScan, hb]
    · have hc1 : ¬(c = '\n') := by simp at hb; tauto
      have hc2 : ¬(c = '\r') := by simp at hb; tauto
      simp [qsScan, hb, ite_self]
      exact ⟨⟨fun h => hc1 h.symm, ih.1⟩, ⟨fun h => hc2 h.symm, ih.2⟩⟩

/-- Dropping a prefix keeps membership. -/
theorem mem_of_mem_dropWhile {α : Type} (p : α → Bool) :
    ∀ (l : List α) (a : α), a ∈ l.dropWhile p → a ∈ l := by
  intro l
  induction l with
  | nil => intro a h; simp at h
  | cons x xs ih =>
    intro a h
    by_cases hp : p x = true
    · simp [List.dropWhile, hp] at h
      exact List.mem_cons_of_mem _ (ih a h)
    · simp [List.dropWhile, hp] at h
      simpa using h

/-- Shape lemma: the whitespace skip leaves nothing. -/
theorem quotedStr_of_dropWhile_nil {d : Char} {s : List Char}
    (h : s.dropWhile wsSkip = []) : quotedStr d s = ([], []) := by
  unfold quotedStr
  rw [h]
  rfl

/-- Shape lemma: the whitespace skip leaves an opening quote. -/
theorem quotedStr_of_dropWhile_quote {d : Char} {s rest : List Char}
    (h : s.dropWhile wsSkip = '"' :: rest) : quotedStr d s = qsScan d true rest := by
  unfold quotedStr
  rw [h]
  rfl

/-- Shape lemma: the whitespace skip leaves a non-quote head. -/
theorem quotedStr_of_dropWhile_ne {d : Char} {s rest : List Char} {c : Char}
    (h : s.dropWhile wsSkip = c :: rest) (hc : c ≠ '"') :
    quotedStr d s = qsScan d false (c :: rest) := by
  unfold quotedStr
  rw [h]
  split
  · next heq => rw [List.cons.injEq] at heq; exact absurd heq.1 hc
  · rfl

/-- On a quote-free input the scanned slice contains no newline byte. -/
theorem quotedStr_no_nl {d : Char} {s : List Char} (hq : '"' ∉ s) :
    '\n' ∉ (quotedStr d s).1 ∧ '\r' ∉ (quotedStr d s).1 := by
  rcases hdw : s.dropWhile wsSkip with _ | ⟨c, rest⟩
  · rw [quotedStr_of_dropWhile_nil hdw]
    simp
  · have hc : c ≠ '"' := by
      intro hcq
      subst hcq
      apply hq
      apply mem_of_mem_dropWhile wsSkip s '"'
      rw [hdw]
      exact List.mem_cons_self _ _
    rw [quotedStr_of_dropWhile_ne hdw hc]
    exact qsScan_false_no_nl d (c :: rest)

/-- The scan remainder consists of input characters. -/
theorem mem_quotedStr_rem {d : Char} {s : List Char} :
    ∀ a ∈ (quotedStr d s).2, a ∈ s := by
  intro a ha
  rcases hdw : s.dropWhile wsSkip with _ | ⟨c, rest⟩
  · rw [quotedStr_of_dropWhile_nil hdw] at ha
    simp at ha
  · by_cases hc : c = '"'
    · subst hc
      rw [quotedStr_of_dropWhile_quote hdw] at ha
      have hin : a ∈ rest := by
        have hd := qsScan_decomp d rest true
        have h2 : a ∈ (qsScan d true rest).1 ++ (qsScan d true rest).2 :=
          List.mem_append_right _ ha
        rwa [hd] at h2
      exact mem_of_mem_dropWhile wsSkip s a
        (by rw [hdw]; exact List.mem_cons_of_mem _ hin)
    · rw [quotedStr_of_dropWhile_ne hdw hc] at ha
      have hin : a ∈ c :: rest := by
        have hd := qsScan_decomp d (c :: rest) false
        have h2 : a ∈ (qsScan d false (c :: rest)).1 ++ (qsScan d false (c :: rest)).2 :=
          List.mem_append_right _ ha
        rwa [hd] at h2
      exact mem_of_mem_dropWhile wsSkip s a (by rw [hdw]; exact hin)

/-- The after-cell input consists of input characters. -/
theorem mem_cellRem {d : Char} {s : List Char} : ∀ a ∈ cellRem d s, a ∈ s := by
  intro a ha
  unfold cellRem at ha
  split at ha
  · next c rest heq =>
    have hin : a ∈ c :: rest := by
      by_cases hcd : (c == d) = true
      · rw [if_pos hcd] at ha
        exact List.mem_cons_of_mem _ ha
      · rwa [if_neg hcd] at ha
    have h2 : a ∈ (quotedStr d s).2 := by rw [heq]; exact hin
    exact mem_quotedStr_rem a h2
  · simp at ha

/-- The stripped line boundary leaves input characters. -/
theorem stripNl_mem : ∀ {s r : List Char}, stripNl s = some r → ∀ a ∈ r, a ∈ s := by
  intro s r h a ha
  unfold stripNl at h
  split at h
  · cases h
    exact List.mem_cons_of_mem _ ha
  · cases h
    exact List.mem_cons_of_mem _ (List.mem_cons_of_mem _ ha)
  · cases h

/-- The cell classifier yields `Obj` only carrying the slice itself. -/
theorem mapEntry_obj : ∀ {s x : List Char}, mapEntry s = Entry.Obj x → x = s := by
  intro s x h
  unfold mapEntry at h
  by_cases hs : s = []
  · simp [hs] at h
  · rw [if_neg hs] at h
    cases hp : parseNumber s with
    | some v => rw [hp] at h; cases h
    | none =>
      rw [hp] at h
      cases h
      rfl

/-- Final cell text only contains characters of the raw slice. -/
theorem mem_of_mem_cellText : ∀ (s : List Char) (a : Char), a ∈ cellText s → a ∈ s := by
  intro s a h
  unfold cellText trimMatches trimEnd at h
  have h1 := List.mem_reverse.mp h
  have h2 := mem_of_mem_dropWhile _ _ _ h1
  have h3 := List.mem_reverse.mp h2
  have h4 := mem_of_mem_dropWhile _ _ _ h3
  have h5 := List.mem_reverse.mp h4
  have h6 := mem_of_mem_dropWhile _ _ _ h5
  exact List.mem_reverse.mp h6

/-- On quote-free input, an `Obj` cell produced by one scan step contains no
newline byte. -/
theorem cellEntry_obj_no_nl {d : Char} {s x : List Char} (hq : '"' ∉ s)
    (h : cellEntry d s = Entry.Obj x) : '\n' ∉ x ∧ '\r' ∉ x := by
  have hx : x = cellText (quotedStr d s).1 := mapEntry_obj h
  subst hx
  have hno := quotedStr_no_nl (d := d) hq
  constructor
  · intro hmem
    exact hno.1 (mem_of_mem_cellText _ _ hmem)
  · intro hmem
    exact hno.2 (mem_of_mem_cellText _ _ hmem)

/-- Over a quote-free input the line loop produces rows whose `Obj` cells
contain no newline byte, and a remainder made of input characters. -/
theorem parseLine2F_no_nl :
    ∀ (f : Nat) (d : Char) (s : List Char) (acc es : List (Entry (List Char))) (rem : List Char),
      '"' ∉ s →
      (∀ e ∈ acc, ∀ x, e = Entry.Obj x → '\n' ∉ x ∧ '\r' ∉ x) →
      parseLine2F d f s acc = some (es, rem) →
      (∀ e ∈ es, ∀ x, e = Entry.Obj x → '\n' ∉ x ∧ '\r' ∉ x) ∧ (∀ a ∈ rem, a ∈ s) := by
  intro f
  induction f with
  | zero => intro d s acc es rem _ _ h; cases h
  | succ n ih =>
    intro d s acc es rem hq hacc h
    by_cases hs : s = []
    · subst hs
      rw [parseLine2F_succ_nil] at h
      simp at h
      obtain ⟨rfl, rfl⟩ := h
      exact ⟨hacc, by simp⟩
    · cases hnl : stripNl s with
      | some rem0 =>
        rw [parseLine2F_succ_strip hs hnl] at h
        simp at h
        obtain ⟨rfl, rfl⟩ := h
        exact ⟨hacc, stripNl_mem hnl⟩
      | none =>
        rw [parseLine2F_succ_cell hs hnl] at h
        have hq' : '"' ∉ cellRem d s := fun hm => hq (mem_cellRem _ hm)
        have hacc' : ∀ e ∈ acc ++ [cellEntry d s], ∀ x,
            e = Entry.Obj x → '\n' ∉ x ∧ '\r' ∉ x := by
          intro e he' x hx
          rcases List.mem_append.mp he' with h1 | h1
          · exact hacc e h1 x hx
          · simp at h1
            subst h1
            exact cellEntry_obj_no_nl hq hx
        obtain ⟨hes, hrem⟩ := ih d (cellRem d s) _ es rem hq' hacc' h
        exact ⟨hes, fun a ha => mem_cellRem _ (hrem a ha)⟩

/-- Over a quote-free input every parsed `Obj` cell is newline-free: each
line boundary terminated its row instead of entering a cell. -/
theorem parseLinesF_no_nl :
    ∀ (f : Nat) (d : Char) (s : List Char) (rows : List (List (Entry (List Char)))),
      '"' ∉ s →
      parseLinesF d f s = some rows →
      ∀ row ∈ rows, ∀ e ∈ row, ∀ x, e = Entry.Obj x → '\n' ∉ x ∧ '\r' ∉ x := by
  intro f
  induction f with
  | zero => intro d s rows _ h; cases h
  | succ n ih =>
    intro d s rows hq h
    by_cases hs : s = []
    · subst hs
      have he : parseLinesF d (n + 1) ([] : List Char) = some [] := rfl
      rw [he] at h
      simp at h
      subst h
      simp
    · rw [parseLinesF, if_neg hs] at h
      cases hline : parseLine2F d (n + 1) s [] with
      | none => rw [hline] at h; cases h
      | some lr =>
        obtain ⟨line, rem⟩ := lr
        rw [hline] at h
        have h2 : Option.map (fun ls => line :: ls) (parseLinesF d n rem) = some rows := h
        cases hrec : parseLinesF d n rem with
        | none => rw [hrec] at h2; cases h2
        | some rows' =>
          rw [hrec] at h2
          simp at h2
          subst h2
          obtain ⟨hents, hrem⟩ :=
            parseLine2F_no_nl (n + 1) d s [] line rem hq (by simp) hline
          intro row hrow
          rcases List.mem_cons.mp hrow with rfl | hrow
          · exact hents
          · exact ih d rem rows' (fun hm => hq (hrem _ hm)) hrec row hrow

/-- The unescaped scan stops at once on a break character. -/
theorem qsScan_break {d c : Char} {cs : List Char}
    (h : (c == d || c == '\n' || c == '\r') = true) :
    qsScan d false (c :: cs) = ([], c :: cs) := by
  simp [qsScan, h]

/-- A head that is neither newline byte defeats `strip_nl`. -/
theorem stripNl_none_of_head {c : Char} {s : List Char} (h1 : ¬c = '\n') (h2 : ¬c = '\r') :
    stripNl (c :: s) = none := by
  unfold stripNl
  split
  · next heq => rw [List.cons.injEq] at heq; exact absurd heq.1 h1
  · next heq => rw [List.cons.injEq] at heq; exact absurd heq.1 h2
  · rfl

/-- The head surviving a drop fails the predicate. -/
theorem dropWhile_head_not {α : Type} (p : α → Bool) :
    ∀ (l : List α) (a : α), (l.dropWhile p).head? = some a → p a = false := by
  intro l
  induction l with
  | nil => intro a h; simp at h
  | cons x xs ih =>
    intro a h
    by_cases hp : p x = true
    · rw [List.dropWhile_cons, if_pos hp] at h
      exact ih a h
    · rw [List.dropWhile_cons, if_neg hp] at h
      rw [List.head?_cons] at h
      injection h with h
      subst h
      cases hpx : p x with
      | true => exact absurd hpx hp
      | false => rfl

/-- A take of equality tests is a replicate of the tested character. -/
theorem takeWhile_beq_replicate (c : Char) (l : List Char) :
    l.takeWhile (fun x => x == c) =
      List.replicate (l.takeWhile (fun x => x == c)).length c := by
  apply List.eq_replicate_of_mem
  intro b hb
  exact eq_of_beq (List.mem_takeWhile_imp (p := fun x => x == c) (l := l) hb)

/-- The head of an append with a nonempty left part. -/
theorem head?_append_left {α : Type} {l : List α} (m : List α) (h : l ≠ []) :
    (l ++ m).head? = l.head? := by
  cases l with
  | nil => exact absurd rfl h
  | cons a as => rfl

/-- Decomposition of `trim_matches` with a character pattern: the input is the
trimmed core surrounded by the maximal runs of the pattern character, and a
nonempty core neither starts nor ends with it. -/
theorem trimMatches_decomp (c : Char) (w : List Char) :
    ∃ a b : Nat,
      w = List.replicate a c ++ (trimMatches c w ++ List.replicate b c) ∧
      (trimMatches c w ≠ [] →
        (trimMatches c w).head? ≠ some c ∧ (trimMatches c w).getLast? ≠ some c) := by
  have h1 := List.takeWhile_append_dropWhile (fun x => x == c) w
  have h2 := List.takeWhile_append_dropWhile (fun x => x == c)
    (w.dropWhile (fun x => x == c)).reverse
  have h3 : w.dropWhile (fun x => x == c) =
      trimMatches c w ++
        ((w.dropWhile (fun x => x == c)).reverse.takeWhile (fun x => x == c)).reverse := by
    have h4 := congrArg List.reverse h2
    rw [List.reverse_append, List.reverse_reverse] at h4
    exact h4.symm
  refine ⟨(w.takeWhile (fun x => x == c)).length,
    ((w.dropWhile (fun x => x == c)).reverse.takeWhile (fun x => x == c)).length, ?_, ?_⟩
  · have hT1 : w.takeWhile (fun x => x == c) =
        List.replicate (w.takeWhile (fun x => x == c)).length c :=
      takeWhile_beq_replicate c w
    have hT2 : ((w.dropWhile (fun x => x == c)).reverse.takeWhile (fun x => x == c)).reverse =
        List.replicate
          ((w.dropWhile (fun x => x == c)).reverse.takeWhile (fun x => x == c)).length c := by
      rw [takeWhile_beq_replicate c, List.reverse_replicate]
      simp
    calc w = w.takeWhile (fun x => x == c) ++ w.dropWhile (fun x => x == c) := h1.symm
      _ = w.takeWhile (fun x => x == c) ++
            (trimMatches c w ++
              ((w.dropWhile (fun x => x == c)).reverse.takeWhile (fun x => x == c)).reverse) := by
          rw [← h3]
      _ = List.replicate (w.takeWhile (fun x => x == c)).length c ++
            (trimMatches c w ++
              List.replicate
                ((w.dropWhile (fun x => x == c)).reverse.takeWhile (fun x => x == c)).length c) := by
          rw [← hT1, ← hT2]
  · intro hM
    have hLne : w.dropWhile (fun x => x == c) ≠ [] := by
      intro h0
      apply hM
      unfold trimMatches
      rw [h0]
      rfl
    obtain ⟨l0, L', hL⟩ : ∃ l0 L', w.dropWhile (fun x => x == c) = l0 :: L' := by
      cases hL0 : w.dropWhile (fun x => x == c) with
      | nil => exact absurd hL0 hLne
      | cons x xs => exact ⟨x, xs, rfl⟩
    have hql0 : (l0 == c) = false :=
      dropWhile_head_not _ w l0 (by rw [hL]; rfl)
    have hMrev : (trimMatches c w).reverse =
        (w.dropWhile (fun x => x == c)).reverse.dropWhile (fun x => x == c) := by
      unfold trimMatches
      rw [List.reverse_reverse]
    have hD2ne : (w.dropWhile (fun x => x == c)).reverse.dropWhile (fun x => x == c) ≠ [] := by
      intro h0
      apply hM
      unfold trimMatches
      rw [h0]
      rfl
    obtain ⟨m0, D', hD⟩ :
        ∃ m0 D', (w.dropWhile (fun x => x == c)).reverse.dropWhile (fun x => x == c)
          = m0 :: D' := by
      cases hD0 : (w.dropWhile (fun x => x == c)).reverse.dropWhile (fun x => x == c) with
      | nil => exact absurd hD0 hD2ne
      | cons x xs => exact ⟨x, xs, rfl⟩
    have hqm0 : (m0 == c) = false :=
      dropWhile_head_not _ _ m0 (by rw [hD]; rfl)
    constructor
    · have hMhead : (trimMatches c w).head? = some l0 := by
        have h5 := head?_append_left
          ((w.dropWhile (fun x => x == c)).reverse.takeWhile (fun x => x == c)).reverse hM
        rw [← h3, hL] at h5
        exact h5.symm
      rw [hMhead]
      intro hcon
      injection hcon with hcon
      rw [hcon] at hql0
      simp at hql0
    · have hMlast : (trimMatches c w).getLast? = some m0 := by
        rw [← List.head?_reverse, hMrev, hD]
        rfl
      rw [hMlast]
      intro hcon
      injection hcon with hcon
      rw [hcon] at hqm0
      simp at hqm0

/-- C4 (amended): the final cell text is the raw scanned slice with trailing
whitespace trimmed and then ALL leading and ALL trailing literal double
quotes stripped (the maximal runs at both ends, recursively): the trimmed
slice decomposes as quote-run, core, quote-run, and a nonempty core neither
starts nor ends with a double quote. -/
theorem c4_strip_all_quotes :
    ∀ s : List Char, ∃ a b : Nat,
      trimEnd s = List.replicate a '"' ++ (cellText s ++ List.replicate b '"') ∧
      (cellText s ≠ [] →
        (cellText s).head? ≠ some '"' ∧ (cellText s).getLast? ≠ some '"') := by
  intro s
  exact trimMatches_decomp '"' (trimEnd s)

/-- Witness for the quote-stripping decomposition at the counterexample
input. -/
theorem c4_strip_all_quotes_witness :
    ∃ a b : Nat,
      trimEnd (String.toList "x\"\"") =
        List.replicate a '"' ++ (cellText (String.toList "x\"\"") ++ List.replicate b '"') ∧
      (cellText (String.toList "x\"\"") ≠ [] →
        (cellText (String.toList "x\"\"")).head? ≠ some '"' ∧
        (cellText (String.toList "x\"\"")).getLast? ≠ some '"') :=
  c4_strip_all_quotes (String.toList "x\"\"")

/-- More fuel preserves a successful line-loop run. -/
theorem parseLine2F_mono (d : Char) :
    ∀ (f g : Nat) (s : List Char) (acc : List (Entry (List Char)))
      (r : List (Entry (List Char)) × List Char),
      f ≤ g → parseLine2F d f s acc = some r → parseLine2F d g s acc = some r := by
  intro f
  induction f with
  | zero => intro g s acc r _ h; cases h
  | succ n ih =>
    intro g s acc r hfg h
    obtain ⟨m, rfl⟩ : ∃ m, g = m + 1 := ⟨g - 1, by omega⟩
    by_cases hs : s = []
    · subst hs
      rw [parseLine2F_succ_nil] at h
      rw [parseLine2F_succ_nil]
      exact h
    · cases hnl : stripNl s with
      | some rem0 =>
        rw [parseLine2F_succ_strip hs hnl] at h
        rw [parseLine2F_succ_strip hs hnl]
        exact h
      | none =>
        rw [parseLine2F_succ_cell hs hnl] at h
        rw [parseLine2F_succ_cell hs hnl]
        exact ih m _ _ _ (by omega) h

/-- More fuel preserves a successful run of the line loop of `parse_dsv`. -/
theorem parseLinesF_mono (d : Char) :
    ∀ (f g : Nat) (s : List Char) (rows : List (List (Entry (List Char)))),
      f ≤ g → parseLinesF d f s = some rows → parseLinesF d g s = some rows := by
  intro f
  induction f with
  | zero => intro g s rows _ h; cases h
  | succ n ih =>
    intro g s rows hfg h
    obtain ⟨m, rfl⟩ : ∃ m, g = m + 1 := ⟨g - 1, by omega⟩
    by_cases hs : s = []
    · subst hs
      have h1 : parseLinesF d (n + 1) ([] : List Char) = some [] := rfl
      rw [h1] at h
      exact h ▸ rfl
    · rw [parseLinesF, if_neg hs] at h
      cases hline : parseLine2F d (n + 1) s [] with
      | none => rw [hline] at h; cases h
      | some lr =>
        obtain ⟨line, rem⟩ := lr
        rw [hline] at h
        have h2 : Option.map (fun ls => line :: ls) (parseLinesF d n rem) = some rows := h
        cases hrec : parseLinesF d n rem with
        | none => rw [hrec] at h2; cases h2
        | some rows' =>
          rw [hrec] at h2
          simp at h2
          subst h2
          have hline' : parseLine2F d (m + 1) s [] = some (line, rem) :=
            parseLine2F_mono d (n + 1) (m + 1) s [] (line, rem) (by omega) hline
          have hrec' : parseLinesF d m rem = some rows' := ih m rem rows' (by omega) hrec
          rw [parseLinesF, if_neg hs, hline']
          show Option.map (fun ls => line :: ls) (parseLinesF d m rem) = _
          rw [hrec']
          rfl

/-- The last element of an append with nonempty right part. -/
theorem getLast?_append_right {α : Type} {l : List α} (t : List α) (h : l ≠ []) :
    (t ++ l).getLast? = l.getLast? := by
  have h1 : (t ++ l).reverse.head? = l.reverse.head? := by
    rw [List.reverse_append]
    exact head?_append_left _ (fun h0 => h (by simpa using congrArg List.reverse h0))
  rw [List.head?_reverse, List.head?_reverse] at h1
  exact h1

/-- Nonempty suffixes share the last element. -/
theorem getLast?_of_suffix {α : Type} {l s : List α} (h : l <:+ s) (hne : l ≠ []) :
    l.getLast? = s.getLast? := by
  obtain ⟨t, rfl⟩ := h
  exact (getLast?_append_right t hne).symm

/-- The scan remainder is a suffix of the scanned line. -/
theorem quotedStr_rem_suffix (d : Char) (s : List Char) : (quotedStr d s).2 <:+ s := by
  have hdw : s.dropWhile wsSkip <:+ s :=
    ⟨s.takeWhile wsSkip, List.takeWhile_append_dropWhile _ _⟩
  rcases hd : s.dropWhile wsSkip with _ | ⟨c, rest⟩
  · rw [quotedStr_of_dropWhile_nil hd]
    exact ⟨s, by simp⟩
  · by_cases hc : c = '"'
    · subst hc
      rw [quotedStr_of_dropWhile_quote hd]
      have h1 : (qsScan d true rest).2 <:+ rest :=
        ⟨(qsScan d true rest).1, qsScan_decomp d rest true⟩
      have h2 : rest <:+ s := by
        obtain ⟨t, ht⟩ := hd ▸ hdw
        exact ⟨t ++ ['"'], by rw [List.append_assoc]; simpa using ht⟩
      exact h1.trans h2
    · rw [quotedStr_of_dropWhile_ne hd hc]
      have h1 : (qsScan d false (c :: rest)).2 <:+ c :: rest :=
        ⟨(qsScan d false (c :: rest)).1, qsScan_decomp d (c :: rest) false⟩
      exact h1.trans (hd ▸ hdw)

/-- The after-cell input is a suffix of the scanned line. -/
theorem cellRem_suffix (d : Char) (s : List Char) : cellRem d s <:+ s := by
  unfold cellRem
  rcases hq2 : (quotedStr d s).2 with _ | ⟨c, rest⟩
  · exact ⟨s, by simp⟩
  · have hsuf : c :: rest <:+ s := hq2 ▸ quotedStr_rem_suffix d s
    show (if (c == d) = true then rest else c :: rest) <:+ s
    by_cases hc : (c == d) = true
    · rw [if_pos hc]
      have h1 : rest <:+ c :: rest := ⟨[c], rfl⟩
      exact h1.trans hsuf
    · rw [if_neg hc]
      exact hsuf

/-- Appending one non-matching element commutes with the drop. -/
theorem dropWhile_append_single {α : Type} {p : α → Bool} {a : α} (ha : p a = false) :
    ∀ s : List α, (s ++ [a]).dropWhile p = s.dropWhile p ++ [a] := by
  intro s
  induction s with
  | nil => simp [List.dropWhile, ha]
  | cons x xs ih =>
    by_cases hx : p x = true
    · simp only [List.cons_append, List.dropWhile_cons, hx, if_true]
      exact ih
    · simp [List.dropWhile_cons, hx]

/-- Dropping past a nonempty remainder ignores an appended tail. -/
theorem dropWhile_append_of_ne {α : Type} {p : α → Bool} :
    ∀ {s : List α}, s.dropWhile p ≠ [] → ∀ v, (s ++ v).dropWhile p = s.dropWhile p ++ v := by
  intro s
  induction s with
  | nil => intro h v; exact absurd rfl h
  | cons x xs ih =>
    intro h v
    by_cases hx : p x = true
    · rw [List.dropWhile_cons, if_pos hx] at h
      simp only [List.cons_append, List.dropWhile_cons, hx, if_true]
      exact ih h v
    · simp [List.dropWhile_cons, hx]

/-- One scan step that breaks at its head. -/
theorem qsScan_cons_break (d c : Char) (cs : List Char) (esc : Bool)
    (hb : (!esc && (c == d || c == '\n' || c == '\r')) = true) :
    qsScan d esc (c :: cs) = ([], c :: cs) := by
  simp only [qsScan]
  rw [if_pos hb]

/-- One scan step that consumes its head. -/
theorem qsScan_cons_nobreak (d c : Char) (cs : List Char) (esc : Bool)
    (hb : (!esc && (c == d || c == '\n' || c == '\r')) = false) :
    qsScan d esc (c :: cs) =
      (c :: (qsScan d (if c == '"' then false else esc) cs).1,
        (qsScan d (if c == '"' then false else esc) cs).2) := by
  simp only [qsScan]
  rw [if_neg (by simp [hb])]

/-- A scan that broke inside `u` breaks identically on any extension. -/
theorem qsScan_append_of_break (d : Char) :
    ∀ (u : List Char) (esc : Bool) (v : List Char), (qsScan d esc u).2 ≠ [] →
      qsScan d esc (u ++ v) = ((qsScan d esc u).1, (qsScan d esc u).2 ++ v) := by
  intro u
  induction u with
  | nil => intro esc v h; simp [qsScan] at h
  | cons c cs ih =>
    intro esc v h
    cases hb : (!esc && (c == d || c == '\n' || c == '\r')) with
    | true =>
      rw [List.cons_append, qsScan_cons_break d c (cs ++ v) esc hb,
        qsScan_cons_break d c cs esc hb]
      rfl
    | false =>
      have h2 : (qsScan d (if c == '"' then false else esc) cs).2 ≠ [] := by
        intro h0
        apply h
        rw [qsScan_cons_nobreak d c cs esc hb]
        exact h0
      rw [List.cons_append, qsScan_cons_nobreak d c (cs ++ v) esc hb,
        qsScan_cons_nobreak d c cs esc hb, ih (if c == '"' then false else esc) v h2]

/-- A scan that consumed all of `u` either swallows an appended newline (the
quote was still open) or breaks exactly at it. -/
theorem qsScan_append_nl_of_end (d : Char) :
    ∀ (u : List Char) (esc : Bool), (qsScan d esc u).2 = [] →
      qsScan d esc (u ++ ['\n']) = ((qsScan d esc u).1 ++ ['\n'], []) ∨
      qsScan d esc (u ++ ['\n']) = ((qsScan d esc u).1, ['\n']) := by
  intro u
  induction u with
  | nil =>
    intro esc h
    cases esc with
    | false =>
      right
      simp [qsScan]
    | true =>
      left
      simp [qsScan]
  | cons c cs ih =>
    intro esc h
    cases hb : (!esc && (c == d || c == '\n' || c == '\r')) with
    | true =>
      rw [qsScan_cons_break d c cs esc hb] at h
      simp at h
    | false =>
      have h2 : (qsScan d (if c == '"' then false else esc) cs).2 = [] := by
        rw [qsScan_cons_nobreak d c cs esc hb] at h
        exact h
      rcases ih (if c == '"' then false else esc) h2 with hcase | hcase
      · left
        rw [List.cons_append, qsScan_cons_nobreak d c (cs ++ ['\n']) esc hb,
          qsScan_cons_nobreak d c cs esc hb, hcase]
        rfl
      · right
        rw [List.cons_append, qsScan_cons_nobreak d c (cs ++ ['\n']) esc hb,
          qsScan_cons_nobreak d c cs esc hb, hcase]

/-- A cell scan that broke inside `s` is unchanged by an appended tail. -/
theorem quotedStr_append_of_break {d : Char} {s : List Char}
    (h : (quotedStr d s).2 ≠ []) (v : List Char) :
    quotedStr d (s ++ v) = ((quotedStr d s).1, (quotedStr d s).2 ++ v) := by
  rcases hd : s.dropWhile wsSkip with _ | ⟨c, rest⟩
  · rw [quotedStr_of_dropWhile_nil hd] at h
    simp at h
  · have hdne : s.dropWhile wsSkip ≠ [] := by rw [hd]; simp
    have hdw2 : (s ++ v).dropWhile wsSkip = c :: (rest ++ v) := by
      rw [dropWhile_append_of_ne hdne v, hd]
      rfl
    by_cases hc : c = '"'
    · subst hc
      rw [quotedStr_of_dropWhile_quote hd] at h ⊢
      rw [quotedStr_of_dropWhile_quote hdw2]
      exact qsScan_append_of_break d rest true v h
    · rw [quotedStr_of_dropWhile_ne hd hc] at h ⊢
      rw [quotedStr_of_dropWhile_ne hdw2 hc]
      have hce : c :: (rest ++ v) = (c :: rest) ++ v := rfl
      rw [hce]
      exact qsScan_append_of_break d (c :: rest) false v h

/-- A cell scan that consumed all of `s` either swallows an appended newline
or breaks exactly at it. -/
theorem quotedStr_append_nl_of_end {d : Char} {s : List Char}
    (h : (quotedStr d s).2 = []) :
    quotedStr d (s ++ ['\n']) = ((quotedStr d s).1 ++ ['\n'], []) ∨
    quotedStr d (s ++ ['\n']) = ((quotedStr d s).1, ['\n']) := by
  have hdw : (s ++ ['\n']).dropWhile wsSkip = s.dropWhile wsSkip ++ ['\n'] :=
    dropWhile_append_single (by decide) s
  rcases hd : s.dropWhile wsSkip with _ | ⟨c, rest⟩
  · right
    rw [quotedStr_of_dropWhile_nil hd]
    have hdw2 : (s ++ ['\n']).dropWhile wsSkip = ['\n'] := by
      rw [hdw, hd]
      rfl
    rw [quotedStr_of_dropWhile_ne hdw2 (by decide)]
    exact qsScan_break (by simp)
  · have hdw2 : (s ++ ['\n']).dropWhile wsSkip = c :: (rest ++ ['\n']) := by
      rw [hdw, hd]
      rfl
    by_cases hc : c = '"'
    · subst hc
      rw [quotedStr_of_dropWhile_quote hd] at h
      rcases qsScan_append_nl_of_end d rest true h with hcase | hcase
      · left
        rw [quotedStr_of_dropWhile_quote hdw2, quotedStr_of_dropWhile_quote hd]
        exact hcase
      · right
        rw [quotedStr_of_dropWhile_quote hdw2, quotedStr_of_dropWhile_quote hd]
        exact hcase
    · rw [quotedStr_of_dropWhile_ne hd hc] at h
      have hce : c :: (rest ++ ['\n']) = (c :: rest) ++ ['\n'] := rfl
      rcases qsScan_append_nl_of_end d (c :: rest) false h with hcase | hcase
      · left
        rw [quotedStr_of_dropWhile_ne hdw2 hc, quotedStr_of_dropWhile_ne hd hc, hce]
        exact hcase
      · right
        rw [quotedStr_of_dropWhile_ne hdw2 hc, quotedStr_of_dropWhile_ne hd hc, hce]
        exact hcase

/-- Trailing-whitespace trimming absorbs an appended newline. -/
theorem trimEnd_append_nl (e : List Char) : trimEnd (e ++ ['\n']) = trimEnd e := by
  unfold trimEnd
  rw [List.reverse_append]
  show (List.dropWhile isUnicodeWs ('\n' :: e.reverse)).reverse = _
  rw [List.dropWhile_cons, if_pos (by decide)]

/-- The cell-text pipeline absorbs an appended newline. -/
theorem cellText_append_nl (e : List Char) : cellText (e ++ ['\n']) = cellText e := by
  unfold cellText
  rw [trimEnd_append_nl]

/-- Cell step on an extension, break case: same entry, extended remainder. -/
theorem cellStep_append_break {d : Char} {s : List Char} (h : (quotedStr d s).2 ≠ []) :
    cellEntry d (s ++ ['\n']) = cellEntry d s ∧
    cellRem d (s ++ ['\n']) = cellRem d s ++ ['\n'] := by
  have hq := quotedStr_append_of_break h ['\n']
  constructor
  · unfold cellEntry
    rw [hq]
  · unfold cellRem
    rw [hq]
    rcases hq2 : (quotedStr d s).2 with _ | ⟨c, rest⟩
    · exact absurd hq2 h
    · by_cases hc : (c == d) = true <;> simp [hc]

/-- Shape of inputs accepted by `strip_nl`. -/
theorem stripNl_eq_some :
    ∀ {s r : List Char}, stripNl s = some r → s = '\n' :: r ∨ s = '\r' :: '\n' :: r := by
  intro s r h
  unfold stripNl at h
  split at h
  · cases h
    exact Or.inl rfl
  · cases h
    exact Or.inr rfl
  · cases h

/-- A carriage return followed by a non-newline defeats `strip_nl`. -/
theorem stripNl_cr_none {c2 : Char} {x : List Char} (h : c2 ≠ '\n') :
    stripNl ('\r' :: c2 :: x) = none := by
  unfold stripNl
  split
  · next heq =>
    rw [List.cons.injEq] at heq
    exact absurd heq.1 (by decide)
  · next heq =>
    rw [List.cons.injEq] at heq
    rw [List.cons.injEq] at heq
    exact absurd heq.2.1 h
  · rfl

/-- If `strip_nl` fails on `s` (which does not end in a carriage return), it
also fails after appending a newline. -/
theorem stripNl_append_nl_none {s : List Char}
    (hs : s ≠ []) (hlast : s.getLast? ≠ some '\r') (hnl : stripNl s = none) :
    stripNl (s ++ ['\n']) = none := by
  rcases s with _ | ⟨c1, s1⟩
  · exact absurd rfl hs
  · have hc1n : c1 ≠ '\n' := by
      intro h0
      subst h0
      rw [show stripNl ('\n' :: s1) = some s1 from rfl] at hnl
      cases hnl
    by_cases hc1r : c1 = '\r'
    · subst hc1r
      rcases s1 with _ | ⟨c2, s2⟩
      · simp at hlast
      · have hc2 : c2 ≠ '\n' := by
          intro h0
          subst h0
          rw [show stripNl ('\r' :: '\n' :: s2) = some s2 from rfl] at hnl
          cases hnl
        show stripNl ('\r' :: c2 :: (s2 ++ ['\n'])) = none
        exact stripNl_cr_none hc2
    · show stripNl (c1 :: (s1 ++ ['\n'])) = none
      exact stripNl_none_of_head hc1n hc1r

/-- Nonempty lists have a last element. -/
theorem getLast?_ne_none {α : Type} {l : List α} (h : l ≠ []) : l.getLast? ≠ none := by
  rw [← List.head?_reverse]
  cases hr : l.reverse with
  | nil =>
    exfalso
    apply h
    have := congrArg List.reverse hr
    simpa using this
  | cons a as => simp

/-- Appending one `\n` to a line whose last character is no line break: the
line loop produces the same entries; a run that consumed everything now stops
at the appended newline with empty remainder, and a run that stopped at an
interior boundary keeps its remainder extended by the appended newline. -/
theorem parseLine2F_append_nl (d : Char) :
    ∀ (f : Nat) (s : List Char) (acc es : List (Entry (List Char))) (rem : List Char),
      (s = [] ∨ (s.getLast? ≠ some '\n' ∧ s.getLast? ≠ some '\r')) →
      parseLine2F d f s acc = some (es, rem) →
      (rem = [] ∧ parseLine2F d f (s ++ ['\n']) acc = some (es, [])) ∨
      (rem ≠ [] ∧ rem.getLast? = s.getLast? ∧
        parseLine2F d f (s ++ ['\n']) acc = some (es, rem ++ ['\n'])) := by
  intro f
  induction f with
  | zero => intro s acc es rem _ h; cases h
  | succ n ih =>
    intro s acc es rem hinv h
    by_cases hs : s = []
    · subst hs
      rw [parseLine2F_succ_nil] at h
      simp at h
      obtain ⟨rfl, rfl⟩ := h
      left
      refine ⟨rfl, ?_⟩
      rw [List.nil_append]
      exact parseLine2F_succ_strip (by simp) (show stripNl ['\n'] = some [] from rfl) acc
    · have hinv2 : s.getLast? ≠ some '\n' ∧ s.getLast? ≠ some '\r' := hinv.resolve_left hs
      have hsnl : s ++ ['\n'] ≠ [] := by simp
      cases hnl : stripNl s with
      | some rem0 =>
        rw [parseLine2F_succ_strip hs hnl acc] at h
        simp at h
        obtain ⟨rfl, rfl⟩ := h
        rcases stripNl_eq_some hnl with hshape | hshape
        · subst hshape
          have hrne : rem0 ≠ [] := by
            intro h0
            subst h0
            simp at hinv2
          have hlastr : rem0.getLast? = ('\n' :: rem0).getLast? :=
            getLast?_of_suffix ⟨['\n'], rfl⟩ hrne
          right
          refine ⟨hrne, hlastr, ?_⟩
          show parseLine2F d (n + 1) ('\n' :: (rem0 ++ ['\n'])) acc = some (acc, rem0 ++ ['\n'])
          exact parseLine2F_succ_strip (by simp) (show stripNl ('\n' :: (rem0 ++ ['\n'])) = some (rem0 ++ ['\n']) from rfl) acc
        · subst hshape
          have hrne : rem0 ≠ [] := by
            intro h0
            subst h0
            simp at hinv2
          have hlastr : rem0.getLast? = ('\r' :: '\n' :: rem0).getLast? :=
            getLast?_of_suffix ⟨['\r', '\n'], rfl⟩ hrne
          right
          refine ⟨hrne, hlastr, ?_⟩
          show parseLine2F d (n + 1) ('\r' :: '\n' :: (rem0 ++ ['\n'])) acc =
            some (acc, rem0 ++ ['\n'])
          exact parseLine2F_succ_strip (by simp) (show stripNl ('\r' :: '\n' :: (rem0 ++ ['\n'])) = some (rem0 ++ ['\n']) from rfl) acc
      | none =>
        rw [parseLine2F_succ_cell hs hnl acc] at h
        have hnl2 : stripNl (s ++ ['\n']) = none :=
          stripNl_append_nl_none hs hinv2.2 hnl
        have hcrs : cellRem d s <:+ s := cellRem_suffix d s
        have hinv' : cellRem d s = [] ∨
            ((cellRem d s).getLast? ≠ some '\n' ∧ (cellRem d s).getLast? ≠ some '\r') := by
          by_cases hce : cellRem d s = []
          · exact Or.inl hce
          · right
            rw [getLast?_of_suffix hcrs hce]
            exact hinv2
        cases hq2 : (quotedStr d s).2 with
        | cons c rest =>
          have hbr : (quotedStr d s).2 ≠ [] := by rw [hq2]; simp
          obtain ⟨hent, hrem⟩ := cellStep_append_break hbr
          rcases ih (cellRem d s) (acc ++ [cellEntry d s]) es rem hinv' h with
            ⟨hrnil, happ⟩ | ⟨hrne, hlast, happ⟩
          · left
            refine ⟨hrnil, ?_⟩
            rw [parseLine2F_succ_cell hsnl hnl2 acc, hent, hrem]
            exact happ
          · have hcne : cellRem d s ≠ [] := by
              intro h0
              rw [h0] at hlast
              simp at hlast
              exact hrne hlast
            right
            refine ⟨hrne, hlast.trans (getLast?_of_suffix hcrs hcne), ?_⟩
            rw [parseLine2F_succ_cell hsnl hnl2 acc, hent, hrem]
            exact happ
        | nil =>
          have hcr : cellRem d s = [] := by
            unfold cellRem
            rw [hq2]
          rw [hcr] at h
          cases n with
          | zero => cases h
          | succ m =>
            rw [parseLine2F_succ_nil] at h
            simp at h
            obtain ⟨rfl, rfl⟩ := h
            left
            refine ⟨rfl, ?_⟩
            rcases quotedStr_append_nl_of_end hq2 with hcase | hcase
            · have hent2 : cellEntry d (s ++ ['\n']) = cellEntry d s := by
                unfold cellEntry
                rw [hcase, cellText_append_nl]
              have hrem2 : cellRem d (s ++ ['\n']) = [] := by
                unfold cellRem
                rw [hcase]
              rw [parseLine2F_succ_cell hsnl hnl2 acc, hent2, hrem2, parseLine2F_succ_nil]
            · have hent2 : cellEntry d (s ++ ['\n']) = cellEntry d s := by
                unfold cellEntry
                rw [hcase]
              have hrem2 : cellRem d (s ++ ['\n']) =
                  if ('\n' == d) = true then [] else ['\n'] := by
                unfold cellRem
                rw [hcase]
              rw [parseLine2F_succ_cell hsnl hnl2 acc, hent2, hrem2]
              by_cases hdn : ('\n' == d) = true
              · rw [if_pos hdn, parseLine2F_succ_nil]
              · rw [if_neg hdn]
                exact parseLine2F_succ_strip (by simp) (show stripNl ['\n'] = some [] from rfl) (acc ++ [cellEntry d s])

/-- Appending one `\n` to an input whose last character is no line break does
not change the parsed rows. -/
theorem parseLinesF_append_nl (d : Char) :
    ∀ (f : Nat) (s : List Char) (rows : List (List (Entry (List Char)))),
      s ≠ [] → s.getLast? ≠ some '\n' → s.getLast? ≠ some '\r' →
      parseLinesF d f s = some rows →
      parseLinesF d (f + 1) (s ++ ['\n']) = some rows := by
  intro f
  induction f with
  | zero => intro s rows _ _ _ h; cases h
  | succ n ih =>
    intro s rows hs h1 h2 h
    rw [parseLinesF, if_neg hs] at h
    cases hline : parseLine2F d (n + 1) s [] with
    | none => rw [hline] at h; cases h
    | some lr =>
      obtain ⟨line, rem⟩ := lr
      rw [hline] at h
      have h3 : Option.map (fun ls => line :: ls) (parseLinesF d n rem) = some rows := h
      cases hrec : parseLinesF d n rem with
      | none => rw [hrec] at h3; cases h3
      | some rows' =>
        rw [hrec] at h3
        simp at h3
        subst h3
        have hsnl : s ++ ['\n'] ≠ [] := by simp
        rcases parseLine2F_append_nl d (n + 1) s [] line rem (Or.inr ⟨h1, h2⟩) hline with
          ⟨hrnil, happ⟩ | ⟨hrne, hlast, happ⟩
        · subst hrnil
          cases n with
          | zero => cases hrec
          | succ m =>
            have hnilrec : parseLinesF d (m + 1) ([] : List Char) = some [] := rfl
            rw [hnilrec] at hrec
            injection hrec with hrec
            subst hrec
            rw [parseLinesF, if_neg hsnl]
            have happ2 : parseLine2F d (m + 1 + 1 + 1) (s ++ ['\n']) [] = some (line, []) :=
              parseLine2F_mono d (m + 1 + 1) _ _ _ _ (by omega) happ
            rw [happ2]
            rfl
        · have hrem1 : rem.getLast? ≠ some '\n' := by rw [hlast]; exact h1
          have hrem2 : rem.getLast? ≠ some '\r' := by rw [hlast]; exact h2
          have hrecapp := ih rem rows' hrne hrem1 hrem2 hrec
          rw [parseLinesF, if_neg hsnl]
          have happ2 : parseLine2F d (n + 1 + 1) (s ++ ['\n']) [] =
              some (line, rem ++ ['\n']) :=
            parseLine2F_mono d (n + 1) _ _ _ _ (by omega) happ
          rw [happ2]
          show Option.map (fun ls => line :: ls) (parseLinesF d (n + 1) (rem ++ ['\n'])) = _
          rw [hrecapp]
          rfl

/-- C10: for every delimiter and every nonempty input whose last character is
neither `\n` nor `\r`, appending a single final line terminator leaves the
parsed table unchanged: no extra row and no altered cell. -/
theorem c10_trailing_newline :
    ∀ (d : Char) (t : List Char) (tb : Table (List Char)) (fuel : Nat),
      t ≠ [] → t.getLast? ≠ some '\n' → t.getLast? ≠ some '\r' →
      parseDsvF fuel d t = .ok tb →
      parseDsvF (fuel + 1) d (t ++ ['\n']) = .ok tb := by
  intro d t tb fuel h1 h2 h3 h
  cases hd : charIsAscii d with
  | false =>
    exfalso
    unfold parseDsvF at h
    rw [hd] at h
    simp at h
  | true =>
    unfold parseDsvF at h ⊢
    rw [hd] at h ⊢
    simp only [Bool.not_true, Bool.false_eq_true, if_false] at h ⊢
    cases hlines : parseLinesF d fuel t with
    | none => rw [hlines] at h; cases h
    | some lines =>
      rw [hlines] at h
      rw [parseLinesF_append_nl d fuel t lines h1 h2 h3 hlines]
      exact h

/-- Witness for the trailing-newline invariance claim at a concrete input. -/
theorem c10_trailing_newline_witness :
    ((String.toList "a") ≠ [] ∧ (String.toList "a").getLast? ≠ some '\n' ∧
      (String.toList "a").getLast? ≠ some '\r' ∧
      parseDsvF 3 ',' (String.toList "a") = .ok ⟨[[.Obj ['a']]], 1, true⟩) ∧
    parseDsvF 4 ',' (String.toList "a" ++ ['\n']) = .ok ⟨[[.Obj ['a']]], 1, true⟩ :=
  ⟨⟨by decide, by decide, by decide, by decide⟩,
    c10_trailing_newline ',' (String.toList "a") ⟨[[.Obj ['a']]], 1, true⟩ 3
      (by decide) (by decide) (by decide) (by decide)⟩

/-- The unquoted cell scan is exactly a span: it consumes the characters
before the first delimiter or newline byte and leaves the rest. -/
theorem qsScan_false_eq_span (d : Char) :
    ∀ u : List Char,
      qsScan d false u =
        (u.takeWhile (fun c => !(c == d || c == '\n' || c == '\r')),
          u.dropWhile (fun c => !(c == d || c == '\n' || c == '\r'))) := by
  intro u
  induction u with
  | nil => rfl
  | cons c cs ih =>
    cases hb : (c == d || c == '\n' || c == '\r') with
    | true =>
      rw [qsScan_cons_break d c cs false (by simp [hb]), List.takeWhile_cons,
        List.dropWhile_cons]
      simp [hb]
    | false =>
      have he : (if c == '"' then false else false) = false := ite_self false
      rw [qsScan_cons_nobreak d c cs false (by simp [hb]), he, ih,
        List.takeWhile_cons, List.dropWhile_cons]
      simp [hb]

/-- A newline byte is consumed into the scanned slice only while the quote
flag is set, and no quote has cleared it before that point: the scan entered
this position escaped and every earlier character of the slice is not a
double quote. -/
theorem qsScan_boundary_only_quoted (d : Char) :
    ∀ (u : List Char) (esc : Bool) (nlc : Char) (a b : List Char),
      (nlc = '\n' ∨ nlc = '\r') →
      (qsScan d esc u).1 = a ++ nlc :: b →
      esc = true ∧ '"' ∉ a := by
  intro u
  induction u with
  | nil =>
    intro esc nlc a b _ h
    simp [qsScan] at h
  | cons c cs ih =>
    intro esc nlc a b hnlc h
    cases hb : (!esc && (c == d || c == '\n' || c == '\r')) with
    | true =>
      rw [qsScan_cons_break d c cs esc hb] at h
      simp at h
    | false =>
      rw [qsScan_cons_nobreak d c cs esc hb] at h
      cases a with
      | nil =>
        simp only [List.nil_append, List.cons.injEq] at h
        obtain ⟨rfl, -⟩ := h
        have hcb : (c == d || c == '\n' || c == '\r') = true := by
          rcases hnlc with rfl | rfl <;> simp
        rw [hcb, Bool.and_true] at hb
        refine ⟨?_, by simp⟩
        cases esc with
        | true => rfl
        | false => simp at hb
      | cons a0 a' =>
        simp only [List.cons_append, List.cons.injEq] at h
        obtain ⟨rfl, h2⟩ := h
        obtain ⟨hesc', ha'⟩ := ih (if c == '"' then false else esc) nlc a' b hnlc h2
        by_cases hc : (c == '"') = true
        · rw [if_pos hc] at hesc'
          cases hesc'
        · rw [if_neg hc] at hesc'
          refine ⟨hesc', ?_⟩
          intro hm
          rcases List.mem_cons.mp hm with hm | hm
          · subst hm
            exact hc (by decide)
          · exact ha' hm

/-- A newline byte occurs inside a scanned cell slice only when the cell
opened with a double quote that is still unclosed at that point. -/
theorem quotedStr_boundary_only_quoted (d : Char) (s : List Char) :
    ∀ (nlc : Char) (a b : List Char),
      (nlc = '\n' ∨ nlc = '\r') →
      (quotedStr d s).1 = a ++ nlc :: b →
      (s.dropWhile wsSkip).head? = some '"' ∧ '"' ∉ a := by
  intro nlc a b hnlc h
  rcases hd : s.dropWhile wsSkip with _ | ⟨c, rest⟩
  · rw [quotedStr_of_dropWhile_nil hd] at h
    simp at h
  · by_cases hc : c = '"'
    · subst hc
      rw [quotedStr_of_dropWhile_quote hd] at h
      exact ⟨rfl, (qsScan_boundary_only_quoted d rest true nlc a b hnlc h).2⟩
    · rw [quotedStr_of_dropWhile_ne hd hc] at h
      have hfalse := (qsScan_boundary_only_quoted d (c :: rest) false nlc a b hnlc h).1
      cases hfalse

/-- A cell scan that stops at a newline (for a delimiter other than `\n`)
terminates the current row immediately after that cell. -/
theorem parseLine2F_break_row (d : Char) :
    ∀ (f : Nat) (s s2 : List Char) (acc : List (Entry (List Char))),
      d ≠ '\n' → s ≠ [] → stripNl s = none → (quotedStr d s).2 = '\n' :: s2 →
      parseLine2F d (f + 2) s acc = some (acc ++ [cellEntry d s], s2) := by
  intro f s s2 acc hd hs hnl hq2
  have hbe : ('\n' == d) = false := by
    cases hbe2 : ('\n' == d) with
    | false => rfl
    | true => exact absurd (eq_of_beq hbe2).symm hd
  have hrem : cellRem d s = '\n' :: s2 := by
    unfold cellRem
    rw [hq2]
    simp [hbe]
  rw [parseLine2F_succ_cell hs hnl acc, hrem]
  exact parseLine2F_succ_strip (by simp) (show stripNl ('\n' :: s2) = some s2 from rfl) _

/-- An opening quote that is never closed swallows the entire remaining
input into the cell, newline bytes included. -/
theorem qsScan_true_all (d : Char) :
    ∀ u : List Char, '"' ∉ u → qsScan d true u = (u, []) := by
  intro u
  induction u with
  | nil => intro _; rfl
  | cons c cs ih =>
    intro h
    have hc : ¬(c == '"') = true := by
      intro h0
      exact h ((eq_of_beq h0) ▸ List.mem_cons_self c cs)
    rw [qsScan_cons_nobreak d c cs true (by simp), if_neg hc,
      ih (fun hm => h (List.mem_cons_of_mem _ hm))]

/-- C1 (amended): a literal line boundary byte appears inside a cell only
when a double quote is open at that point — the cell began with an opening
quote not yet closed before the boundary. With no quote open the cell scan
consumes exactly the characters before the first delimiter or newline byte,
and, when the delimiter is not itself `\n`, a scan stopping at a `\n` ends
the current row immediately after that cell; an unterminated opening quote
swallows the whole remaining input, newlines included; and with delimiter
`\n` the boundary after a cell is consumed as the delimiter rather than
ending the row (concrete instances for both delimiter kinds conjoined). -/
theorem c1_line_priority :
    (∀ (d : Char) (s : List Char) (nlc : Char) (a b : List Char),
      (nlc = '\n' ∨ nlc = '\r') →
      (quotedStr d s).1 = a ++ nlc :: b →
      (s.dropWhile wsSkip).head? = some '"' ∧ '"' ∉ a) ∧
    (∀ (d : Char) (u : List Char),
      qsScan d false u =
        (u.takeWhile (fun c => !(c == d || c == '\n' || c == '\r')),
          u.dropWhile (fun c => !(c == d || c == '\n' || c == '\r')))) ∧
    (∀ (d : Char) (f : Nat) (s s2 : List Char) (acc : List (Entry (List Char))),
      d ≠ '\n' → s ≠ [] → stripNl s = none → (quotedStr d s).2 = '\n' :: s2 →
      parseLine2F d (f + 2) s acc = some (acc ++ [cellEntry d s], s2)) ∧
    (∀ (d : Char) (u : List Char), '"' ∉ u → qsScan d true u = (u, [])) ∧
    parseDsvF 8 ',' (String.toList "a\nb") =
      .ok ⟨[[.Obj ['a']], [.Obj ['b']]], 1, true⟩ ∧
    parseDsvF 8 '\n' (String.toList "a\nb") =
      .ok ⟨[[.Obj ['a'], .Obj ['b']]], 2, true⟩ :=
  ⟨fun d s => quotedStr_boundary_only_quoted d s,
    fun d u => qsScan_false_eq_span d u,
    fun d f s s2 acc => parseLine2F_break_row d f s s2 acc,
    fun d u => qsScan_true_all d u,
    by decide, by decide⟩

/-- Witness for the amended line-priority claim: the unquoted scan of
`a\nb` stops at the newline and the row ends right after the cell `a`. -/
theorem c1_line_priority_witness :
    ((',' : Char) ≠ '\n' ∧ String.toList "a\nb" ≠ [] ∧
      stripNl (String.toList "a\nb") = none ∧
      (quotedStr ',' (String.toList "a\nb")).2 = '\n' :: String.toList "b") ∧
    parseLine2F ',' 2 (String.toList "a\nb") [] =
      some ([cellEntry ',' (String.toList "a\nb")], String.toList "b") :=
  ⟨⟨by decide, by decide, by decide, by decide⟩,
    c1_line_priority.2.2.1 ',' 0 (String.toList "a\nb") (String.toList "b") []
      (by decide) (by decide) (by decide) (by decide)⟩

end TableVerif
